import Mathlib

/-!
Verification of the Tower of Hanoi solver (`src/tower_of_hanoi.py`).

Shallow embedding conventions:
* A Python list of disks on a peg (`Peg.disks`, bottom at index 0, top at
  index -1) is modelled as a Lean `List Disk` with the TOP disk at the HEAD,
  i.e. the Lean list is the reverse of the Python list.  Python's
  `disks.append` / `disks.pop()` / `disks[-1]` become `cons` / `tail` /
  `head?`.  "Bottom-to-top strictly decreasing" therefore reads
  "head-to-tail strictly increasing" on the Lean list.
* A raised Python exception that the modelled code does not catch is
  `none` / the error value of an `Option` result; a normal return is `some`.
* The GUI-only fields of `Disk` (`x`, `y`) are set to `0` at creation and
  never read or written by the core logic, so they are omitted.
-/

/-- Enumeration for the three pegs (`PegName` in the source):
SOURCE = "A", AUXILIARY = "B", DESTINATION = "C". -/
inductive PegName where
  | SOURCE
  | AUXILIARY
  | DESTINATION
deriving DecidableEq, Repr

/-- A single disk movement (`Move` dataclass). -/
structure Move where
  disk_size : Nat
  from_peg : PegName
  to_peg : PegName
deriving DecidableEq, Repr

/-- A disk (`Disk` class): its size and its colour string. -/
structure Disk where
  size : Nat
  colour : String
deriving DecidableEq, Repr

/-- `Peg.push`: `if self.disks and disk.size >= self.disks[-1].size: raise
ValueError(...)` then `self.disks.append(disk)`.  The raise is modelled as
`none`; a normal return pushes the disk on top (head of the Lean list). -/
def Peg.push (disks : List Disk) (d : Disk) : Option (List Disk) :=
  match disks with
  | [] => some [d]
  | top :: _ => if d.size ≥ top.size then none else some (d :: disks)

/-- `Peg.pop`: `return self.disks.pop() if self.disks else None`, as the
popped disk (if any) together with the remaining stack. -/
def Peg.pop (disks : List Disk) : Option Disk × List Disk :=
  (disks.head?, disks.tail)

/-- `Peg.peek`: `return self.disks[-1] if self.disks else None`. -/
def Peg.peek (disks : List Disk) : Option Disk :=
  disks.head?

/-- `Peg.is_empty`: `return len(self.disks) == 0`. -/
def Peg.isEmpty (disks : List Disk) : Bool :=
  disks.isEmpty

/-- The colour palette `GameState.colours` (ten entries). -/
def colours : List String :=
  ["#E8F4FD", "#4A90E2", "#7ED321", "#F5A623", "#D0021B",
   "#9013FE", "#50E3C2", "#B8E986", "#F8E71C", "#BD10E0"]

/-- `colour = self.colours[i - 1] if i <= len(self.colours) else "#CCCCCC"`,
the colour given to the disk of size `i` in `__init__` and in `reset`. -/
def diskColour (i : Nat) : String :=
  if i ≤ colours.length then colours.getD (i - 1) "#CCCCCC" else "#CCCCCC"

/-- The stack of disks built on SOURCE by the loop
`for i in range(num_disks, 0, -1): ... push(Disk(i, colour))`:
sizes `n, n-1, ..., 1` bottom to top, i.e. `1, ..., n` top-first. -/
def initDisks (n : Nat) : List Disk :=
  (List.range' 1 n).map (fun i => ⟨i, diskColour i⟩)

/-- The initialization loop itself, pushing disks `i, i-1, ..., 1` through
`Peg.push` (which can in principle raise, modelled by `none`). -/
def initFill : Nat → List Disk → Option (List Disk)
  | 0, disks => some disks
  | i + 1, disks =>
    match Peg.push disks ⟨i + 1, diskColour (i + 1)⟩ with
    | none => none
    | some disks' => initFill i disks'

/-- `GameState`: the three pegs (held in a dict keyed by `PegName` in the
source) and the scalar counters. -/
structure GameState where
  num_disks : Nat
  total_moves : Nat
  current_move : Nat
  source : List Disk
  auxiliary : List Disk
  destination : List Disk
deriving DecidableEq, Repr

/-- `self.pegs[p]`. -/
def GameState.getPeg (s : GameState) : PegName → List Disk
  | .SOURCE => s.source
  | .AUXILIARY => s.auxiliary
  | .DESTINATION => s.destination

/-- Replace the stack of one peg (the in-place mutation of `self.pegs[p]`). -/
def GameState.setPeg (s : GameState) (p : PegName) (l : List Disk) : GameState :=
  match p with
  | .SOURCE => { s with source := l }
  | .AUXILIARY => { s with auxiliary := l }
  | .DESTINATION => { s with destination := l }

/-- `self.current_move += 1`. -/
def GameState.incMove (s : GameState) : GameState :=
  { s with current_move := s.current_move + 1 }

/-- `GameState.__init__(num_disks)`: `total_moves = 2**num_disks - 1`,
`current_move = 0`, all disks pushed onto SOURCE largest first (the loop
builds exactly `initDisks num_disks`; see `initFill_spec` below). -/
def GameState.init (n : Nat) : GameState :=
  { num_disks := n
    total_moves := 2 ^ n - 1
    current_move := 0
    source := initDisks n
    auxiliary := []
    destination := [] }

/-- `GameState.execute_move`.  The three sequential checks return
`(state-unchanged, False)`; on all checks passing the code pops from the
from-peg, pushes onto the to-peg (reading the to-peg AFTER the pop, which
matters when `from_peg = to_peg`, since both names alias one Python object),
and increments the counter.  A `ValueError` raised by `Peg.push` is not
caught by `execute_move` and is modelled as `none`. -/
def GameState.execute_move (s : GameState) (m : Move) : Option (GameState × Bool) :=
  match s.getPeg m.from_peg with
  | [] => some (s, false)
  | disk :: rest =>
    if disk.size ≠ m.disk_size then some (s, false)
    else if (match s.getPeg m.to_peg with
             | [] => false
             | top :: _ => top.size < disk.size) then some (s, false)
    else
      let s1 := s.setPeg m.from_peg rest
      match Peg.push (s1.getPeg m.to_peg) disk with
      | none => none
      | some l =>
        let s2 := s1.setPeg m.to_peg l
        some (s2.incMove, true)

/-- `GameState.is_solved`. -/
def GameState.is_solved (s : GameState) : Bool :=
  (s.getPeg .DESTINATION).length == s.num_disks
    && Peg.isEmpty (s.getPeg .SOURCE)
    && Peg.isEmpty (s.getPeg .AUXILIARY)

/-- `GameState.reset`: clears all three pegs, rebuilds SOURCE by the same
loop as `__init__` (yielding `initDisks`), and zeroes `current_move`;
`num_disks` and `total_moves` are not touched. -/
def GameState.reset (s : GameState) : GameState :=
  { s with
    source := initDisks s.num_disks
    auxiliary := []
    destination := []
    current_move := 0 }

/-- `hanoi_solver(n, source, destination, auxiliary)`, with the generator's
emissions collected into a list.  For `n ≤ 0` the Python function recurses
without a base case (it never terminates); callers guarantee `n ≥ 1`
(spec section 4.1), and the `0` case below is a modelling artifact that no
claim depends on. -/
def hanoi_solver : Nat → PegName → PegName → PegName → List Move
  | 0, _, _, _ => []
  | 1, source, destination, _ => [⟨1, source, destination⟩]
  | n + 2, source, destination, auxiliary =>
    hanoi_solver (n + 1) source auxiliary destination
      ++ [⟨n + 2, source, destination⟩]
      ++ hanoi_solver (n + 1) auxiliary destination source

/-- Run a list of moves through `execute_move`, as the test driver
`test_algorithm.py` does: `some` of the final state when every call
returns `True`, `none` as soon as a call reports failure or raises. -/
def runMoves : GameState → List Move → Option GameState
  | s, [] => some s
  | s, m :: ms =>
    match s.execute_move m with
    | some (s', true) => runMoves s' ms
    | _ => none

/-- The spec's peg invariant: disk sizes strictly decreasing from bottom to
top.  On the top-first Lean list this is "strictly increasing head to
tail". -/
def pegOrdered (l : List Disk) : Prop :=
  List.Chain' (· < ·) (l.map Disk.size)

/-- No two disks on different pegs share a size (true of every state the
program can construct, since `__init__` hands out sizes `1..n` once). -/
def crossDistinct (s : GameState) : Prop :=
  ∀ p q : PegName, p ≠ q → ∀ a ∈ s.getPeg p, ∀ b ∈ s.getPeg q, a.size ≠ b.size

/-- The combined state invariant used below. -/
def StateInv (s : GameState) : Prop :=
  (∀ p, pegOrdered (s.getPeg p)) ∧ crossDistinct s

/-- States reachable from a freshly constructed `GameState` by any sequence
of `execute_move` calls that return normally (successes and rejections
alike). -/
inductive Reachable : GameState → Prop where
  | base (n : Nat) : Reachable (GameState.init n)
  | step {s s' : GameState} {m : Move} {b : Bool} :
      Reachable s → s.execute_move m = some (s', b) → Reachable s'

/-- A state with two disks of size 2 on different pegs.  `GameState.__init__`
never builds such a state; it is used to exhibit the uncaught `ValueError`
path through `Peg.push` inside `execute_move`. -/
def dupState : GameState :=
  { num_disks := 2
    total_moves := 3
    current_move := 0
    source := [⟨2, "#E8F4FD"⟩]
    auxiliary := []
    destination := [⟨2, "#4A90E2"⟩] }

/-- The controller state of `TowerOfHanoiGUI` restricted to the fields the
control flow of `next_move`/`toggle_pause` reads and writes: the puzzle
state, the unconsumed suffix of the move generator, and the two flags.
Widgets, the highlight field and the tkinter timer are presentation-only;
a timer firing is modelled as one invocation of `next_move` (the guard at
its top is exactly the stale-callback check). -/
structure TowerOfHanoiGUI where
  game_state : GameState
  move_generator : List Move
  is_solving : Bool
  is_paused : Bool
deriving DecidableEq, Repr

/-- `finish_solving` (core effect only: both flags cleared; button/status
updates are presentation). -/
def TowerOfHanoiGUI.finish_solving (c : TowerOfHanoiGUI) : TowerOfHanoiGUI :=
  { c with is_solving := false, is_paused := false }

/-- `next_move`: returns immediately when not solving or paused; otherwise
pulls the next move from the generator (`StopIteration` when exhausted ⇒
finish), executes it, and either finishes (solved or failed move) or stays
running awaiting the next scheduled invocation.  An exception escaping
`execute_move` is `none`. -/
def TowerOfHanoiGUI.next_move (c : TowerOfHanoiGUI) : Option TowerOfHanoiGUI :=
  if !c.is_solving || c.is_paused then some c
  else
    match c.move_generator with
    | [] => some c.finish_solving
    | m :: rest =>
      match c.game_state.execute_move m with
      | none => none
      | some (gs, b) =>
        let c' := { c with game_state := gs, move_generator := rest }
        if b then
          if gs.is_solved then some c'.finish_solving
          else some c'
        else some c'.finish_solving

/-- `toggle_pause`: no-op unless solving; flips the pause flag; on resume
immediately calls `next_move`. -/
def TowerOfHanoiGUI.toggle_pause (c : TowerOfHanoiGUI) : Option TowerOfHanoiGUI :=
  if !c.is_solving then some c
  else
    let c' := { c with is_paused := !c.is_paused }
    if !c'.is_paused then c'.next_move else some c'

/-! ### Basic lemmas about the state accessors -/

theorem getPeg_setPeg_same (s : GameState) (p : PegName) (l : List Disk) :
    (s.setPeg p l).getPeg p = l := by
  cases p <;> rfl

theorem getPeg_setPeg_ne (s : GameState) {p q : PegName} (l : List Disk)
    (h : p ≠ q) : (s.setPeg p l).getPeg q = s.getPeg q := by
  cases p <;> cases q <;> first | rfl | exact absurd rfl h

theorem getPeg_incMove (s : GameState) (p : PegName) :
    s.incMove.getPeg p = s.getPeg p := by
  cases p <;> rfl

theorem setPeg_num_disks (s : GameState) (p : PegName) (l : List Disk) :
    (s.setPeg p l).num_disks = s.num_disks := by
  cases p <;> rfl

theorem setPeg_total_moves (s : GameState) (p : PegName) (l : List Disk) :
    (s.setPeg p l).total_moves = s.total_moves := by
  cases p <;> rfl

theorem setPeg_current_move (s : GameState) (p : PegName) (l : List Disk) :
    (s.setPeg p l).current_move = s.current_move := by
  cases p <;> rfl

theorem getPeg_setPeg (s : GameState) (p q : PegName) (l : List Disk) :
    (s.setPeg p l).getPeg q = if q = p then l else s.getPeg q := by
  cases p <;> cases q <;> simp [GameState.setPeg, GameState.getPeg]

/-! ### Lemmas about the initial stack -/

theorem initDisks_sizes (n : Nat) :
    (initDisks n).map Disk.size = List.range' 1 n := by
  simp only [initDisks, List.map_map]
  exact List.map_id (List.range' 1 n)

theorem initDisks_length (n : Nat) : (initDisks n).length = n := by
  simp [initDisks]

/-- The `__init__`/`reset` loop never trips `Peg.push`'s error branch and
builds exactly `initDisks`: at each step the disk pushed is one smaller than
the current top. -/
theorem initFill_spec (n : Nat) : initFill n [] = some (initDisks n) := by
  have key : ∀ i j : Nat,
      initFill i ((List.range' (i + 1) j).map (fun k => ⟨k, diskColour k⟩)) =
        some ((List.range' 1 (i + j)).map (fun k => ⟨k, diskColour k⟩)) := by
    intro i
    induction i with
    | zero => intro j; simp [initFill]
    | succ i ih =>
      intro j
      have hstep :
          Peg.push ((List.range' (i + 2) j).map (fun k => (⟨k, diskColour k⟩ : Disk)))
              ⟨i + 1, diskColour (i + 1)⟩ =
            some ((List.range' (i + 1) (j + 1)).map (fun k => ⟨k, diskColour k⟩)) := by
        cases j with
        | zero => simp [Peg.push]
        | succ j =>
          rw [List.range'_succ]
          simp only [List.map_cons, Peg.push]
          rw [if_neg (by omega)]
          rw [List.range'_succ (i + 1), List.range'_succ (i + 1 + 1)]
          simp
      simp only [initFill, hstep]
      have := ih (j + 1)
      have harith : i + (j + 1) = i + 1 + j := by omega
      rw [harith] at this
      exact this
  have := key n 0
  simpa [initDisks] using this

/-! ### Running move lists -/

theorem runMoves_append (s : GameState) (ms₁ ms₂ : List Move) :
    runMoves s (ms₁ ++ ms₂) =
      match runMoves s ms₁ with
      | some s' => runMoves s' ms₂
      | none => none := by
  induction ms₁ generalizing s with
  | nil => rfl
  | cons m ms ih =>
    simp only [List.cons_append, runMoves]
    cases h : s.execute_move m with
    | none => rfl
    | some r =>
      obtain ⟨s', b⟩ := r
      cases b
      · rfl
      · exact ih s'

/-! ### Unfolding lemmas for `execute_move` -/

theorem execute_move_empty {s : GameState} {m : Move}
    (h : s.getPeg m.from_peg = []) : s.execute_move m = some (s, false) := by
  simp [GameState.execute_move, h]

theorem execute_move_mismatch {s : GameState} {m : Move} {d : Disk}
    {rest : List Disk} (h : s.getPeg m.from_peg = d :: rest)
    (hne : d.size ≠ m.disk_size) : s.execute_move m = some (s, false) := by
  simp [GameState.execute_move, h, hne]

theorem execute_move_blocked {s : GameState} {m : Move} {d t : Disk}
    {rest trest : List Disk} (h : s.getPeg m.from_peg = d :: rest)
    (hsz : d.size = m.disk_size) (ht : s.getPeg m.to_peg = t :: trest)
    (hlt : t.size < d.size) : s.execute_move m = some (s, false) := by
  have hlt' : t.size < m.disk_size := by omega
  simp [GameState.execute_move, h, hsz, ht, hlt']

theorem execute_move_pass {s : GameState} {m : Move} {d : Disk}
    {rest : List Disk} (h : s.getPeg m.from_peg = d :: rest)
    (hsz : d.size = m.disk_size)
    (hok : ∀ t ∈ (s.getPeg m.to_peg).head?, ¬ t.size < d.size) :
    s.execute_move m =
      match Peg.push ((s.setPeg m.from_peg rest).getPeg m.to_peg) d with
      | none => none
      | some l =>
        some (((s.setPeg m.from_peg rest).setPeg m.to_peg l).incMove, true) := by
  have hcheck3 : (match s.getPeg m.to_peg with
      | [] => false
      | top :: _ => decide (top.size < m.disk_size)) = false := by
    cases hto : s.getPeg m.to_peg with
    | nil => rfl
    | cons t tr =>
      simp only [decide_eq_false_iff_not]
      rw [← hsz]
      exact hok t (by simp [hto])
  simp only [GameState.execute_move, h, hsz]
  simp [hcheck3]

/-- A legal move between two distinct pegs whose destination top (if any) is
strictly larger: all checks pass and `Peg.push` succeeds. -/
theorem execute_move_good {s : GameState} {x y : PegName} {d : Disk}
    {rest : List Disk} {k : Nat}
    (hxy : x ≠ y) (hx : s.getPeg x = d :: rest) (hd : d.size = k)
    (hy : ∀ t ∈ (s.getPeg y).head?, k < t.size) :
    s.execute_move ⟨k, x, y⟩ =
      some (((s.setPeg x rest).setPeg y (d :: s.getPeg y)).incMove, true) := by
  have hok : ∀ t ∈ (s.getPeg y).head?, ¬ t.size < d.size := by
    intro t ht
    have := hy t ht
    omega
  rw [execute_move_pass (m := ⟨k, x, y⟩) hx hd hok]
  have hside : (s.setPeg x rest).getPeg y = s.getPeg y := getPeg_setPeg_ne s rest hxy
  show (match Peg.push ((s.setPeg x rest).getPeg y) d with
    | none => none
    | some l => some (((s.setPeg x rest).setPeg y l).incMove, true)) = _
  rw [hside]
  cases hto : s.getPeg y with
  | nil => simp [Peg.push]
  | cons t tr =>
    have hk : k < t.size := hy t (by simp [hto])
    simp only [Peg.push]
    rw [if_neg (by omega)]

/-- Exhaustive case analysis of `execute_move`: either `Peg.push` raised
(`none`), or the move was rejected with the state unchanged, or the move
succeeded by popping and pushing. -/
theorem execute_move_cases (s : GameState) (m : Move) :
    s.execute_move m = none ∨
    s.execute_move m = some (s, false) ∨
    ∃ d rest l,
      s.getPeg m.from_peg = d :: rest ∧ d.size = m.disk_size ∧
      Peg.push ((s.setPeg m.from_peg rest).getPeg m.to_peg) d = some l ∧
      s.execute_move m =
        some (((s.setPeg m.from_peg rest).setPeg m.to_peg l).incMove, true) := by
  cases hfrom : s.getPeg m.from_peg with
  | nil => exact Or.inr (Or.inl (execute_move_empty hfrom))
  | cons d rest =>
    rw [← hfrom]
    by_cases hsz : d.size = m.disk_size
    · have hfinish : (∀ t ∈ (s.getPeg m.to_peg).head?, ¬ t.size < d.size) →
          s.execute_move m = none ∨
          s.execute_move m = some (s, false) ∨
          ∃ d' rest' l,
            s.getPeg m.from_peg = d' :: rest' ∧ d'.size = m.disk_size ∧
            Peg.push ((s.setPeg m.from_peg rest').getPeg m.to_peg) d' = some l ∧
            s.execute_move m =
              some (((s.setPeg m.from_peg rest').setPeg m.to_peg l).incMove, true) := by
        intro hok
        have hp := execute_move_pass hfrom hsz hok
        cases hpush : Peg.push ((s.setPeg m.from_peg rest).getPeg m.to_peg) d with
        | none => exact Or.inl (by rw [hp, hpush])
        | some l =>
          exact Or.inr (Or.inr ⟨d, rest, l, hfrom, hsz, hpush, by rw [hp, hpush]⟩)
      cases hto : s.getPeg m.to_peg with
      | nil => exact hfinish (by simp [hto])
      | cons t tr =>
        by_cases hlt : t.size < d.size
        · exact Or.inr (Or.inl (execute_move_blocked hfrom hsz hto hlt))
        · refine hfinish ?_
          intro u hu
          rw [hto] at hu
          simp only [List.head?_cons, Option.mem_some_iff] at hu
          subst hu
          exact hlt
    · exact Or.inr (Or.inl (execute_move_mismatch hfrom hsz))

/-- Any normally-returning `execute_move` leaves `num_disks` and
`total_moves` untouched. -/
theorem execute_move_consts {s s' : GameState} {m : Move} {b : Bool}
    (h : s.execute_move m = some (s', b)) :
    s'.num_disks = s.num_disks ∧ s'.total_moves = s.total_moves := by
  rcases execute_move_cases s m with hn | hr | ⟨d, rest, l, -, -, -, he⟩
  · rw [hn] at h; cases h
  · rw [hr] at h
    have : s = s' := by
      simpa using congrArg (fun o => (Option.map Prod.fst o).getD s) h
    rw [← this]
    exact ⟨rfl, rfl⟩
  · rw [he] at h
    have : s' = ((s.setPeg m.from_peg rest).setPeg m.to_peg l).incMove := by
      have := congrArg (fun o => (Option.map Prod.fst o).getD s) h
      simpa using this.symm
    rw [this]
    constructor
    · show ((s.setPeg m.from_peg rest).setPeg m.to_peg l).num_disks = _
      rw [setPeg_num_disks, setPeg_num_disks]
    · show ((s.setPeg m.from_peg rest).setPeg m.to_peg l).total_moves = _
      rw [setPeg_total_moves, setPeg_total_moves]

/-- Main correctness lemma for the recursive solver: running
`hanoi_solver n x y z` from a state whose `x` peg carries disks of sizes
`1..n` (top-first) above some remainder, with every other disk on any peg
larger than `n`, succeeds and transfers those `n` disks onto peg `y`,
adding `2^n - 1` to the move counter. -/
theorem hanoi_run_spec (n : Nat) :
    ∀ (x y z : PegName) (s : GameState) (L A' : List Disk),
      x ≠ y → x ≠ z → y ≠ z →
      s.getPeg x = L ++ A' →
      L.map Disk.size = List.range' 1 n →
      (∀ d ∈ A', n < d.size) →
      (∀ d ∈ s.getPeg y, n < d.size) →
      (∀ d ∈ s.getPeg z, n < d.size) →
      ∃ s', runMoves s (hanoi_solver n x y z) = some s' ∧
        s'.getPeg x = A' ∧
        s'.getPeg y = L ++ s.getPeg y ∧
        s'.getPeg z = s.getPeg z ∧
        s'.current_move = s.current_move + (2 ^ n - 1) ∧
        s'.num_disks = s.num_disks ∧
        s'.total_moves = s.total_moves := by
  induction n using Nat.strong_induction_on with
  | _ n ih =>
    match n with
    | 0 =>
      intro x y z s L A' _ _ _ hx hL _ _ _
      have hLnil : L = [] := by
        have : L.map Disk.size = [] := by simpa using hL
        simpa using this
      subst hLnil
      refine ⟨s, rfl, by simpa using hx, by simp, rfl, by simp, rfl, rfl⟩
    | 1 =>
      intro x y z s L A' hxy hxz hyz hx hL hA hy hz
      obtain ⟨d, hLd⟩ : ∃ d, L = [d] ∧ d.size = 1 := by
        cases L with
        | nil => simp at hL
        | cons d L' =>
          simp only [List.map_cons] at hL
          rw [List.range'_one] at hL
          have h1 : d.size = 1 := (List.cons_eq_cons.mp hL).1
          have h2 : L' = [] := by
            have := (List.cons_eq_cons.mp hL).2
            simpa using this
          exact ⟨d, by rw [h2], h1⟩
      obtain ⟨hLeq, hd1⟩ := hLd
      subst hLeq
      have hx' : s.getPeg x = d :: A' := by simpa using hx
      have hmov := execute_move_good hxy hx' hd1
        (fun t ht => hy t (List.mem_of_mem_head? ht))
      refine ⟨((s.setPeg x A').setPeg y (d :: s.getPeg y)).incMove, ?_, ?_, ?_, ?_, ?_, ?_, ?_⟩
      · show runMoves s [⟨1, x, y⟩] = _
        simp only [runMoves, hmov]
      · rw [getPeg_incMove, getPeg_setPeg_ne _ _ (Ne.symm hxy), getPeg_setPeg_same]
      · rw [getPeg_incMove, getPeg_setPeg_same]
        rfl
      · rw [getPeg_incMove, getPeg_setPeg_ne _ _ hyz, getPeg_setPeg_ne _ _ hxz]
      · show ((s.setPeg x A').setPeg y (d :: s.getPeg y)).current_move + 1 = _
        rw [setPeg_current_move, setPeg_current_move]
        norm_num
      · show ((s.setPeg x A').setPeg y (d :: s.getPeg y)).num_disks = _
        rw [setPeg_num_disks, setPeg_num_disks]
      · show ((s.setPeg x A').setPeg y (d :: s.getPeg y)).total_moves = _
        rw [setPeg_total_moves, setPeg_total_moves]
    | (n + 2) =>
      intro x y z s L A' hxy hxz hyz hx hL hA hy hz
      -- split L into the top n+1 disks and the bottom disk of size n+2
      rw [List.range'_1_concat] at hL
      obtain ⟨L₁, L₂, hLsplit, hL₁, hL₂⟩ := List.map_eq_append_iff.mp hL
      obtain ⟨dL, hdL⟩ : ∃ dL, L₂ = [dL] ∧ dL.size = n + 2 := by
        cases L₂ with
        | nil => simp at hL₂
        | cons dL L₂' =>
          simp only [List.map_cons] at hL₂
          have h1 : dL.size = 1 + (n + 1) := (List.cons_eq_cons.mp hL₂).1
          have h2 : L₂' = [] := by
            have := (List.cons_eq_cons.mp hL₂).2
            simpa using this
          exact ⟨dL, by rw [h2], by omega⟩
      obtain ⟨hL₂eq, hdLsize⟩ := hdL
      subst hL₂eq
      subst hLsplit
      -- phase 1: move the top n+1 disks from x to z
      obtain ⟨s₁, hrun₁, hx₁, hz₁, hy₁, hcur₁, hnum₁, htot₁⟩ :=
        ih (n + 1) (by omega) x z y s L₁ ([dL] ++ A')
          hxz hxy (Ne.symm hyz)
          (by rw [hx, List.append_assoc])
          hL₁
          (by
            intro e he
            rcases List.mem_append.mp he with h | h
            · have he' : e = dL := by simpa using h
              rw [he']
              omega
            · have := hA e h
              omega)
          (fun e he => by have := hz e he; omega)
          (fun e he => by have := hy e he; omega)
      -- phase 2: move the bottom disk from x to y
      have hx₁' : s₁.getPeg x = dL :: A' := by simpa using hx₁
      have hymem : ∀ t ∈ (s₁.getPeg y).head?, n + 2 < t.size := by
        intro t ht
        rw [hy₁] at ht
        exact hy t (List.mem_of_mem_head? ht)
      have hmov := execute_move_good hxy hx₁' hdLsize hymem
      set s₂ := ((s₁.setPeg x A').setPeg y (dL :: s₁.getPeg y)).incMove with hs₂
      have hx₂ : s₂.getPeg x = A' := by
        rw [hs₂, getPeg_incMove, getPeg_setPeg_ne _ _ (Ne.symm hxy), getPeg_setPeg_same]
      have hy₂ : s₂.getPeg y = dL :: s.getPeg y := by
        rw [hs₂, getPeg_incMove, getPeg_setPeg_same, hy₁]
      have hz₂ : s₂.getPeg z = L₁ ++ s.getPeg z := by
        rw [hs₂, getPeg_incMove, getPeg_setPeg_ne _ _ hyz, getPeg_setPeg_ne _ _ hxz, hz₁]
      have hcur₂ : s₂.current_move = s₁.current_move + 1 := by
        rw [hs₂]
        show ((s₁.setPeg x A').setPeg y (dL :: s₁.getPeg y)).current_move + 1 = _
        rw [setPeg_current_move, setPeg_current_move]
      have hnum₂ : s₂.num_disks = s₁.num_disks := by
        rw [hs₂]
        show ((s₁.setPeg x A').setPeg y (dL :: s₁.getPeg y)).num_disks = _
        rw [setPeg_num_disks, setPeg_num_disks]
      have htot₂ : s₂.total_moves = s₁.total_moves := by
        rw [hs₂]
        show ((s₁.setPeg x A').setPeg y (dL :: s₁.getPeg y)).total_moves = _
        rw [setPeg_total_moves, setPeg_total_moves]
      -- phase 3: move the n+1 disks from z to y
      obtain ⟨s₃, hrun₃, hz₃, hy₃, hx₃, hcur₃, hnum₃, htot₃⟩ :=
        ih (n + 1) (by omega) z y x s₂ L₁ (s.getPeg z)
          (Ne.symm hyz) (Ne.symm hxz) (Ne.symm hxy)
          (by rw [hz₂])
          hL₁
          (fun e he => by have := hz e he; omega)
          (by
            intro e he
            rw [hy₂] at he
            rcases List.mem_cons.mp he with h | h
            · rw [h]; omega
            · have := hy e h; omega)
          (by
            intro e he
            rw [hx₂] at he
            have := hA e he
            omega)
      refine ⟨s₃, ?_, hx₃.trans hx₂, ?_, hz₃, ?_, ?_, ?_⟩
      · show runMoves s (hanoi_solver (n + 1) x z y ++ [⟨n + 2, x, y⟩]
            ++ hanoi_solver (n + 1) z y x) = some s₃
        rw [List.append_assoc, runMoves_append, hrun₁]
        show runMoves s₁ (⟨n + 2, x, y⟩ :: hanoi_solver (n + 1) z y x) = some s₃
        simp only [runMoves, hmov]
        exact hrun₃
      · simp [hy₃, hy₂]
      · rw [hcur₃, hcur₂, hcur₁]
        have hpow : 2 ^ (n + 2) = 2 ^ (n + 1) + 2 ^ (n + 1) := by
          rw [pow_succ]
          ring
        have hpos : 1 ≤ 2 ^ (n + 1) := Nat.one_le_two_pow
        omega
      · rw [hnum₃, hnum₂, hnum₁]
      · rw [htot₃, htot₂, htot₁]

/-! ### Shapes of the results of `execute_move` -/

/-- A `True` return is exactly the pop/push/increment shape. -/
theorem execute_move_true_shape {s s' : GameState} {m : Move}
    (h : s.execute_move m = some (s', true)) :
    ∃ d rest l,
      s.getPeg m.from_peg = d :: rest ∧ d.size = m.disk_size ∧
      Peg.push ((s.setPeg m.from_peg rest).getPeg m.to_peg) d = some l ∧
      s' = ((s.setPeg m.from_peg rest).setPeg m.to_peg l).incMove := by
  rcases execute_move_cases s m with hn | hr | ⟨d, rest, l, h1, h2, h3, he⟩
  · rw [hn] at h; cases h
  · rw [hr] at h
    simp only [Option.some.injEq, Prod.mk.injEq] at h
    cases h.2
  · rw [he] at h
    simp only [Option.some.injEq, Prod.mk.injEq] at h
    exact ⟨d, rest, l, h1, h2, h3, h.1.symm⟩

/-- A `False` return leaves the state untouched. -/
theorem execute_move_false_shape {s s' : GameState} {m : Move}
    (h : s.execute_move m = some (s', false)) : s' = s := by
  rcases execute_move_cases s m with hn | hr | ⟨d, rest, l, -, -, -, he⟩
  · rw [hn] at h; cases h
  · rw [hr] at h
    simp only [Option.some.injEq, Prod.mk.injEq] at h
    exact h.1.symm
  · rw [he] at h
    simp only [Option.some.injEq, Prod.mk.injEq] at h
    cases h.2

/-! ### `Peg.push` facts -/

/-- A successful push prepends the disk, and the previous top (if any) was
strictly larger. -/
theorem push_some_eq {tl l : List Disk} {d : Disk}
    (hpush : Peg.push tl d = some l) :
    l = d :: tl ∧ ∀ u ∈ tl.head?, d.size < u.size := by
  cases tl with
  | nil =>
    refine ⟨?_, by simp⟩
    simpa [Peg.push] using hpush.symm
  | cons t tr =>
    have hpush' : (if d.size ≥ t.size then none else some (d :: t :: tr) : Option (List Disk))
        = some l := hpush
    by_cases hge : d.size ≥ t.size
    · rw [if_pos hge] at hpush'; cases hpush'
    · rw [if_neg hge] at hpush'
      refine ⟨by simpa using hpush'.symm, ?_⟩
      intro u hu
      simp only [List.head?_cons, Option.mem_some_iff] at hu
      subst hu
      omega

/-- A successful push of `d` onto an ordered stack keeps it ordered. -/
theorem push_ordered {tl l : List Disk} {d : Disk}
    (hpush : Peg.push tl d = some l) (h : pegOrdered tl) : pegOrdered l := by
  obtain ⟨hl, htop⟩ := push_some_eq hpush
  subst hl
  unfold pegOrdered at h ⊢
  rw [List.map_cons, List.chain'_cons']
  refine ⟨?_, h⟩
  cases tl with
  | nil => simp
  | cons t tr =>
    intro y hy
    simp only [List.map_cons, List.head?_cons, Option.mem_some_iff] at hy
    subst hy
    exact htop t (by simp)

/-! ### Ordered-stack facts -/

theorem pegOrdered_nil : pegOrdered [] := by
  simp [pegOrdered]

theorem pegOrdered_tail {d : Disk} {rest : List Disk}
    (h : pegOrdered (d :: rest)) : pegOrdered rest := by
  unfold pegOrdered at h ⊢
  rw [List.map_cons, List.chain'_cons'] at h
  exact h.2

theorem pegOrdered_head_lt {d : Disk} {rest : List Disk}
    (h : pegOrdered (d :: rest)) : ∀ a ∈ rest, d.size < a.size := by
  intro a ha
  unfold pegOrdered at h
  rw [List.map_cons, List.chain'_iff_pairwise] at h
  exact List.rel_of_pairwise_cons h (List.mem_map_of_mem Disk.size ha)

theorem setPeg_setPeg_same (s : GameState) (p : PegName) (l₁ l₂ : List Disk) :
    (s.setPeg p l₁).setPeg p l₂ = s.setPeg p l₂ := by
  cases p <;> rfl

/-- Peg contents of the state produced by a successful `execute_move`:
the to-peg holds the push result, the from-peg (when distinct) holds the
popped remainder, all other pegs are untouched. -/
theorem getPeg_after_success {s : GameState} {m : Move} {rest l : List Disk}
    (p : PegName) :
    (((s.setPeg m.from_peg rest).setPeg m.to_peg l).incMove).getPeg p =
      if p = m.to_peg then l
      else if p = m.from_peg then rest
      else s.getPeg p := by
  rw [getPeg_incMove]
  by_cases hpt : p = m.to_peg
  · rw [if_pos hpt, hpt, getPeg_setPeg_same]
  · rw [if_neg hpt, getPeg_setPeg_ne _ _ (fun h => hpt h.symm)]
    by_cases hpf : p = m.from_peg
    · rw [if_pos hpf, hpf, getPeg_setPeg_same]
    · rw [if_neg hpf, getPeg_setPeg_ne _ _ (fun h => hpf h.symm)]

/-! ### Preservation of the invariants -/

/-- A successful `execute_move` from a state with only the per-peg ordering
keeps every peg ordered: `Peg.push`'s own guard protects the destination,
and popping preserves order trivially. -/
theorem ordered_preserved {s s' : GameState} {m : Move}
    (h : s.execute_move m = some (s', true))
    (ho : ∀ p, pegOrdered (s.getPeg p)) :
    ∀ p, pegOrdered (s'.getPeg p) := by
  obtain ⟨d, rest, l, hfrom, hsz, hpush, hs'⟩ := execute_move_true_shape h
  subst hs'
  intro p
  rw [getPeg_after_success]
  by_cases hpt : p = m.to_peg
  · rw [if_pos hpt]
    refine push_ordered hpush ?_
    by_cases hft : m.from_peg = m.to_peg
    · rw [← hft, getPeg_setPeg_same]
      exact pegOrdered_tail (hfrom ▸ ho m.from_peg)
    · rw [getPeg_setPeg_ne _ _ hft]
      exact ho m.to_peg
  · rw [if_neg hpt]
    by_cases hpf : p = m.from_peg
    · rw [if_pos hpf]
      exact pegOrdered_tail (hfrom ▸ ho m.from_peg)
    · rw [if_neg hpf]
      exact ho p

/-- A successful `execute_move` also preserves cross-peg distinctness of
sizes (the moved disk leaves one peg and joins another). -/
theorem crossDistinct_preserved {s s' : GameState} {m : Move}
    (h : s.execute_move m = some (s', true))
    (ho : ∀ p, pegOrdered (s.getPeg p)) (hc : crossDistinct s) :
    crossDistinct s' := by
  obtain ⟨d, rest, l, hfrom, hsz, hpush, hs'⟩ := execute_move_true_shape h
  obtain ⟨hl, -⟩ := push_some_eq hpush
  have hd_mem : d ∈ s.getPeg m.from_peg := by
    rw [hfrom]; exact List.mem_cons_self d rest
  have hrest_mem : ∀ a ∈ rest, a ∈ s.getPeg m.from_peg := by
    intro a ha; rw [hfrom]; exact List.mem_cons_of_mem d ha
  have hd_rest : ∀ a ∈ rest, d.size < a.size :=
    pegOrdered_head_lt (hfrom ▸ ho m.from_peg)
  have hnew : ∀ p, s'.getPeg p =
      if p = m.to_peg then l else if p = m.from_peg then rest else s.getPeg p := by
    intro p; rw [hs']; exact getPeg_after_success p
  by_cases hft : m.from_peg = m.to_peg
  · -- self-move: every disk stays on its peg
    have htl : (s.setPeg m.from_peg rest).getPeg m.to_peg = rest := by
      rw [← hft, getPeg_setPeg_same]
    have hmem : ∀ p, ∀ a ∈ s'.getPeg p, a ∈ s.getPeg p := by
      intro p a ha
      rw [hnew p] at ha
      by_cases hpt : p = m.to_peg
      · rw [if_pos hpt] at ha
        rw [hl, htl] at ha
        rcases List.mem_cons.mp ha with had | har
        · rw [hpt, ← hft, had]; exact hd_mem
        · rw [hpt, ← hft]; exact hrest_mem a har
      · rw [if_neg hpt, if_neg (by rw [hft]; exact hpt)] at ha
        exact ha
    intro p q hpq a ha b hb
    exact hc p q hpq a (hmem p a ha) b (hmem q b hb)
  · -- move between two distinct pegs
    have htl : (s.setPeg m.from_peg rest).getPeg m.to_peg = s.getPeg m.to_peg :=
      getPeg_setPeg_ne s rest hft
    have horigin : ∀ p, ∀ a ∈ s'.getPeg p,
        (p = m.to_peg ∧ a = d) ∨ a ∈ s.getPeg p := by
      intro p a ha
      rw [hnew p] at ha
      by_cases hpt : p = m.to_peg
      · rw [if_pos hpt] at ha
        rw [hl, htl] at ha
        rcases List.mem_cons.mp ha with had | hato
        · exact Or.inl ⟨hpt, had⟩
        · exact Or.inr (by rw [hpt]; exact hato)
      · rw [if_neg hpt] at ha
        by_cases hpf : p = m.from_peg
        · rw [if_pos hpf] at ha
          exact Or.inr (by rw [hpf]; exact hrest_mem a ha)
        · rw [if_neg hpf] at ha
          exact Or.inr ha
    have hfromnew : ∀ a ∈ s'.getPeg m.from_peg, a ∈ rest := by
      intro a ha
      rw [hnew m.from_peg, if_neg hft, if_pos rfl] at ha
      exact ha
    intro p q hpq a ha b hb
    rcases horigin p a ha with ⟨hpt, had⟩ | hap
    · rcases horigin q b hb with ⟨hqt, hbd⟩ | hbq
      · exact absurd (hpt.trans hqt.symm) hpq
      · by_cases hqf : q = m.from_peg
        · have hbr : b ∈ rest := hfromnew b (by rw [← hqf]; exact hb)
          have := hd_rest b hbr
          rw [had]; omega
        · rw [had]
          exact hc m.from_peg q (fun hx => hqf hx.symm) d hd_mem b hbq
    · rcases horigin q b hb with ⟨hqt, hbd⟩ | hbq
      · by_cases hpf : p = m.from_peg
        · have har : a ∈ rest := hfromnew a (by rw [← hpf]; exact ha)
          have := hd_rest a har
          rw [hbd]; omega
        · rw [hbd]
          exact (hc m.from_peg p (fun hy => hpf hy.symm) d hd_mem a hap).symm
      · exact hc p q hpq a hap b hbq

/-! ### The invariant holds in every reachable state -/

theorem StateInv_init (n : Nat) : StateInv (GameState.init n) := by
  constructor
  · intro p
    cases p
    · show pegOrdered (initDisks n)
      unfold pegOrdered
      rw [initDisks_sizes]
      exact (List.pairwise_lt_range' 1 n).chain'
    · exact pegOrdered_nil
    · exact pegOrdered_nil
  · intro p q hpq a ha b hb
    cases p <;> cases q <;>
      first
        | exact absurd rfl hpq
        | exact absurd hb (List.not_mem_nil b)
        | exact absurd ha (List.not_mem_nil a)

theorem StateInv_preserved {s s' : GameState} {m : Move} {b : Bool}
    (h : s.execute_move m = some (s', b)) (hi : StateInv s) : StateInv s' := by
  cases b with
  | false =>
    rw [execute_move_false_shape h]
    exact hi
  | true =>
    exact ⟨ordered_preserved h hi.1, crossDistinct_preserved h hi.1 hi.2⟩

theorem reachable_StateInv {s : GameState} (h : Reachable s) : StateInv s := by
  induction h with
  | base n => exact StateInv_init n
  | step _ hm ih => exact StateInv_preserved hm ih

theorem reachable_consts {s : GameState} (h : Reachable s) :
    s.total_moves = 2 ^ s.num_disks - 1 := by
  induction h with
  | base n => rfl
  | step _ hm ih =>
    obtain ⟨hn, ht⟩ := execute_move_consts hm
    rw [hn, ht, ih]

/-- Under the invariant, `execute_move` always returns normally: the raise
inside `Peg.push` is unreachable. -/
theorem StateInv_execute_move_some (s : GameState) (hi : StateInv s) (m : Move) :
    ∃ r, s.execute_move m = some r := by
  cases hfrom : s.getPeg m.from_peg with
  | nil => exact ⟨_, execute_move_empty hfrom⟩
  | cons d rest =>
    by_cases hsz : d.size = m.disk_size
    · have hcase : (∀ t ∈ (s.getPeg m.to_peg).head?, ¬ t.size < d.size) →
          ∃ r, s.execute_move m = some r := by
        intro hok
        rw [execute_move_pass hfrom hsz hok]
        by_cases hft : m.from_peg = m.to_peg
        · have htl : (s.setPeg m.from_peg rest).getPeg m.to_peg = rest := by
            rw [← hft, getPeg_setPeg_same]
          rw [htl]
          cases hr : rest with
          | nil => exact ⟨_, rfl⟩
          | cons u ur =>
            have hu : d.size < u.size := by
              refine pegOrdered_head_lt (hfrom ▸ hi.1 m.from_peg) u ?_
              rw [hr]; exact List.mem_cons_self u ur
            have hpush : Peg.push (u :: ur) d = some (d :: u :: ur) := by
              show (if d.size ≥ u.size then none else some (d :: u :: ur)
                : Option (List Disk)) = _
              rw [if_neg (by omega)]
            rw [hpush]
            exact ⟨_, rfl⟩
        · have htl : (s.setPeg m.from_peg rest).getPeg m.to_peg = s.getPeg m.to_peg :=
            getPeg_setPeg_ne s rest hft
          rw [htl]
          cases hto : s.getPeg m.to_peg with
          | nil => exact ⟨_, rfl⟩
          | cons u ur =>
            have hne : d.size ≠ u.size := by
              refine hi.2 m.from_peg m.to_peg hft d ?_ u ?_
              · rw [hfrom]; exact List.mem_cons_self d rest
              · rw [hto]; exact List.mem_cons_self u ur
            have hnlt : ¬ u.size < d.size := hok u (by rw [hto]; simp)
            have hpush : Peg.push (u :: ur) d = some (d :: u :: ur) := by
              show (if d.size ≥ u.size then none else some (d :: u :: ur)
                : Option (List Disk)) = _
              rw [if_neg (by omega)]
            rw [hpush]
            exact ⟨_, rfl⟩
      cases hto' : s.getPeg m.to_peg with
      | nil => exact hcase (by simp [hto'])
      | cons t tr =>
        by_cases hlt : t.size < d.size
        · exact ⟨_, execute_move_blocked hfrom hsz hto' hlt⟩
        · refine hcase ?_
          intro u hu
          rw [hto'] at hu
          simp only [List.head?_cons, Option.mem_some_iff] at hu
          subst hu
          exact hlt
    · exact ⟨_, execute_move_mismatch hfrom hsz⟩

/-! ### Counting the generated moves -/

theorem hanoi_length (n : Nat) :
    ∀ a b c : PegName, (hanoi_solver n a b c).length = 2 ^ n - 1 := by
  induction n using Nat.strong_induction_on with
  | _ n ih =>
    match n with
    | 0 => intro a b c; rfl
    | 1 => intro a b c; rfl
    | (n + 2) =>
      intro a b c
      show (hanoi_solver (n + 1) a c b ++ [(⟨n + 2, a, b⟩ : Move)]
        ++ hanoi_solver (n + 1) c b a).length = _
      rw [List.length_append, List.length_append,
        ih (n + 1) (by omega), ih (n + 1) (by omega)]
      have h1 : 1 ≤ 2 ^ (n + 1) := Nat.one_le_two_pow
      have h2 : 2 ^ (n + 2) = 2 ^ (n + 1) + 2 ^ (n + 1) := by
        rw [pow_succ]; ring
      simp only [List.length_singleton]
      omega

theorem hanoi_disk_size_le (n : Nat) :
    ∀ (a b c : PegName) (m : Move), m ∈ hanoi_solver n a b c →
      1 ≤ m.disk_size ∧ m.disk_size ≤ n := by
  induction n using Nat.strong_induction_on with
  | _ n ih =>
    match n with
    | 0 => intro a b c m hm; cases hm
    | 1 =>
      intro a b c m hm
      have hm' : m ∈ [(⟨1, a, b⟩ : Move)] := hm
      have hme : m = ⟨1, a, b⟩ := by simpa using hm'
      rw [hme]
      exact ⟨le_refl 1, le_refl 1⟩
    | (n + 2) =>
      intro a b c m hm
      have hm' : m ∈ hanoi_solver (n + 1) a c b ++ [⟨n + 2, a, b⟩]
          ++ hanoi_solver (n + 1) c b a := hm
      rcases List.mem_append.mp hm' with hm1 | hm3
      · rcases List.mem_append.mp hm1 with hm1a | hm1b
        · have := ih (n + 1) (by omega) a c b m hm1a
          omega
        · have hme : m = ⟨n + 2, a, b⟩ := by simpa using hm1b
          rw [hme]
          show 1 ≤ n + 2 ∧ n + 2 ≤ n + 2
          omega
      · have := ih (n + 1) (by omega) c b a m hm3
        omega

theorem hanoi_count (n : Nat) :
    ∀ (k : Nat) (a b c : PegName), 1 ≤ k → k ≤ n →
      (hanoi_solver n a b c).countP (fun m => m.disk_size == k) = 2 ^ (n - k) := by
  induction n using Nat.strong_induction_on with
  | _ n ih =>
    match n with
    | 0 => intro k a b c hk1 hk2; omega
    | 1 =>
      intro k a b c hk1 hk2
      have hk : k = 1 := by omega
      subst hk
      rfl
    | (n + 2) =>
      intro k a b c hk1 hk2
      show (hanoi_solver (n + 1) a c b ++ [(⟨n + 2, a, b⟩ : Move)]
        ++ hanoi_solver (n + 1) c b a).countP (fun m => m.disk_size == k) = _
      rw [List.countP_append, List.countP_append]
      by_cases hk : k = n + 2
      · have hz : ∀ x y z : PegName,
            (hanoi_solver (n + 1) x y z).countP (fun m => m.disk_size == k) = 0 := by
          intro x y z
          rw [List.countP_eq_zero]
          intro m hm
          have := hanoi_disk_size_le (n + 1) x y z m hm
          simp only [beq_iff_eq]
          omega
        rw [hz a c b, hz c b a]
        have hmid : ([(⟨n + 2, a, b⟩ : Move)] : List Move).countP
            (fun m => m.disk_size == k) = 1 := by
          simp [List.countP_cons, hk]
        rw [hmid]
        have : n + 2 - k = 0 := by omega
        rw [this]
        rfl
      · have hk' : ¬ (n + 2 = k) := fun hx => hk hx.symm
        have hmid : ([(⟨n + 2, a, b⟩ : Move)] : List Move).countP
            (fun m => m.disk_size == k) = 0 := by
          simp [List.countP_cons, beq_iff_eq, hk']
        rw [hmid, ih (n + 1) (by omega) k a c b hk1 (by omega),
          ih (n + 1) (by omega) k c b a hk1 (by omega)]
        have hpow : 2 ^ (n + 2 - k) = 2 ^ (n + 1 - k) + 2 ^ (n + 1 - k) := by
          have : n + 2 - k = (n + 1 - k) + 1 := by omega
          rw [this, pow_succ]
          ring
        omega

/-! ### Claim theorems -/

/-- Claim C1: for every n ≥ 1, applying the full move sequence produced by
`hanoi_solver(n, SOURCE, DESTINATION, AUXILIARY)`, in order, to a freshly
constructed `GameState(n)` makes every `execute_move` call return success
(`runMoves` returns `some`), and afterwards `is_solved()` returns true and
`current_move` equals `total_moves` (= 2^n - 1). -/
theorem C1_full_sequence_solves (n : Nat) (h : 1 ≤ n) :
    ∃ s', runMoves (GameState.init n)
        (hanoi_solver n PegName.SOURCE PegName.DESTINATION PegName.AUXILIARY) = some s' ∧
      s'.is_solved = true ∧
      s'.current_move = s'.total_moves ∧
      s'.total_moves = 2 ^ n - 1 := by
  obtain ⟨s', hrun, hsrc, hdst, haux, hcur, hnum, htot⟩ :=
    hanoi_run_spec n PegName.SOURCE PegName.DESTINATION PegName.AUXILIARY
      (GameState.init n) (initDisks n) []
      (by decide) (by decide) (by decide)
      (by simp [GameState.getPeg, GameState.init])
      (initDisks_sizes n)
      (by simp)
      (by simp [GameState.getPeg, GameState.init])
      (by simp [GameState.getPeg, GameState.init])
  refine ⟨s', hrun, ?_, ?_, ?_⟩
  · have hdst' : s'.getPeg .DESTINATION = initDisks n := by
      simpa [GameState.getPeg, GameState.init] using hdst
    have haux' : s'.getPeg .AUXILIARY = [] := by
      simpa [GameState.getPeg, GameState.init] using haux
    have hnum' : s'.num_disks = n := by
      simpa [GameState.init] using hnum
    simp [GameState.is_solved, Peg.isEmpty, hdst', hsrc, haux', hnum', initDisks_length]
  · rw [hcur, htot]
    simp [GameState.init]
  · simpa [GameState.init] using htot

/-- Witness for C1 at n = 3. -/
theorem C1_witness : 1 ≤ 3 ∧
    (∃ s', runMoves (GameState.init 3)
        (hanoi_solver 3 PegName.SOURCE PegName.DESTINATION PegName.AUXILIARY) = some s' ∧
      s'.is_solved = true ∧
      s'.current_move = s'.total_moves ∧
      s'.total_moves = 2 ^ 3 - 1) :=
  ⟨by omega, C1_full_sequence_solves 3 (by omega)⟩

/-- Claim C2: for every n ≥ 1, the sequence yielded by
`hanoi_solver(n, source, destination, auxiliary)` is a finite list of
exactly 2^n - 1 moves. -/
theorem C2_move_count (n : Nat) (h : 1 ≤ n) (source destination auxiliary : PegName) :
    (hanoi_solver n source destination auxiliary).length = 2 ^ n - 1 :=
  hanoi_length n source destination auxiliary

/-- Witness for C2 at n = 5. -/
theorem C2_witness : 1 ≤ 5 ∧
    (hanoi_solver 5 PegName.SOURCE PegName.DESTINATION PegName.AUXILIARY).length = 2 ^ 5 - 1 :=
  ⟨by omega, C2_move_count 5 (by omega) PegName.SOURCE PegName.DESTINATION PegName.AUXILIARY⟩

/-- Claim C5: for every n ≥ 1 and 1 ≤ k ≤ n, moves with `disk_size = k`
appear in the generated sequence exactly 2^(n-k) times. -/
theorem C5_disk_frequency (n k : Nat) (hk1 : 1 ≤ k) (hkn : k ≤ n)
    (source destination auxiliary : PegName) :
    (hanoi_solver n source destination auxiliary).countP
      (fun m => m.disk_size == k) = 2 ^ (n - k) :=
  hanoi_count n k source destination auxiliary hk1 hkn

/-- Witness for C5 at n = 5, k = 2. -/
theorem C5_witness : 1 ≤ 2 ∧ 2 ≤ 5 ∧
    (hanoi_solver 5 PegName.SOURCE PegName.DESTINATION PegName.AUXILIARY).countP
      (fun m => m.disk_size == 2) = 2 ^ (5 - 2) :=
  ⟨by omega, by omega,
    C5_disk_frequency 5 2 (by omega) (by omega)
      PegName.SOURCE PegName.DESTINATION PegName.AUXILIARY⟩

/-- Claim C8: for n = 3 the generated sequence is exactly the seven moves
(1,A,C), (2,A,B), (1,C,B), (3,A,C), (1,B,A), (2,B,C), (1,A,C) — with
A = SOURCE, B = AUXILIARY, C = DESTINATION — and applying it to a fresh
`GameState(3)` leaves SOURCE and AUXILIARY empty and DESTINATION holding
disks [3,2,1] bottom to top (the reversed top-first size list). -/
theorem C8_three_disk_scenario :
    hanoi_solver 3 PegName.SOURCE PegName.DESTINATION PegName.AUXILIARY =
      [⟨1, .SOURCE, .DESTINATION⟩, ⟨2, .SOURCE, .AUXILIARY⟩,
       ⟨1, .DESTINATION, .AUXILIARY⟩, ⟨3, .SOURCE, .DESTINATION⟩,
       ⟨1, .AUXILIARY, .SOURCE⟩, ⟨2, .AUXILIARY, .DESTINATION⟩,
       ⟨1, .SOURCE, .DESTINATION⟩] ∧
    (hanoi_solver 3 PegName.SOURCE PegName.DESTINATION PegName.AUXILIARY).length = 7 ∧
    (runMoves (GameState.init 3)
        (hanoi_solver 3 PegName.SOURCE PegName.DESTINATION PegName.AUXILIARY)).map
      (fun s => (s.getPeg .SOURCE, s.getPeg .AUXILIARY,
        ((s.getPeg .DESTINATION).map Disk.size).reverse)) =
      some ([], [], [3, 2, 1]) :=
  ⟨rfl, rfl, rfl⟩

/-- Claim C3, counterexample: the claim demands rejection whenever the
to-peg is non-empty and its top disk is NOT strictly larger than
`move.disk_size`.  The code's third check only rejects when the top is
strictly SMALLER (`<`), so the self-move `Move(1, SOURCE, SOURCE)` on a
fresh one-disk state — to-peg top size 1, not strictly greater than 1 —
is accepted: it pops and re-pushes the same disk and increments the
counter, returning `True` instead of the demanded failure. -/
theorem C3_counterexample :
    ((GameState.init 1).getPeg PegName.SOURCE).map Disk.size = [1] ∧
    (GameState.init 1).execute_move ⟨1, PegName.SOURCE, PegName.SOURCE⟩ =
      some ({ GameState.init 1 with current_move := 1 }, true) :=
  ⟨rfl, rfl⟩

/-- Claim C3 (amended): `execute_move` rejects with all pegs and the counter
unchanged when (1) the from-peg is empty, (2) the from-peg's top size
differs from `move.disk_size`, or (3) the to-peg is non-empty and its top
size is strictly LESS than `move.disk_size` (equality passes the check).
When all three checks pass it pops the from-peg's top and hands it to
`Peg.push` on the to-peg as mutated by the pop, incrementing the counter on
a successful push; a push failure (destination top not larger — possible
only with duplicate sizes across pegs) is an uncaught error (`none`). -/
theorem C3_execute_move_checks (s : GameState) (m : Move) :
    (s.getPeg m.from_peg = [] → s.execute_move m = some (s, false)) ∧
    (∀ d rest, s.getPeg m.from_peg = d :: rest → d.size ≠ m.disk_size →
      s.execute_move m = some (s, false)) ∧
    (∀ d rest t trest, s.getPeg m.from_peg = d :: rest → d.size = m.disk_size →
      s.getPeg m.to_peg = t :: trest → t.size < m.disk_size →
      s.execute_move m = some (s, false)) ∧
    (∀ d rest, s.getPeg m.from_peg = d :: rest → d.size = m.disk_size →
      (∀ t ∈ (s.getPeg m.to_peg).head?, ¬ t.size < m.disk_size) →
      s.execute_move m =
        match Peg.push ((s.setPeg m.from_peg rest).getPeg m.to_peg) d with
        | none => none
        | some l =>
          some (((s.setPeg m.from_peg rest).setPeg m.to_peg l).incMove, true)) := by
  refine ⟨execute_move_empty, ?_, ?_, ?_⟩
  · intro d rest hfrom hne
    exact execute_move_mismatch hfrom hne
  · intro d rest t trest hfrom hsz hto hlt
    exact execute_move_blocked hfrom hsz hto (by omega)
  · intro d rest hfrom hsz hok
    refine execute_move_pass hfrom hsz ?_
    intro t ht
    have := hok t ht
    omega

/-- Witness for the amended C3: one concrete instance of each rejection
check and of the success path. -/
theorem C3_witness :
    (GameState.init 1).execute_move ⟨2, PegName.AUXILIARY, PegName.DESTINATION⟩ =
      some (GameState.init 1, false) ∧
    (GameState.init 1).execute_move ⟨2, PegName.SOURCE, PegName.DESTINATION⟩ =
      some (GameState.init 1, false) ∧
    (GameState.init 2).execute_move ⟨2, PegName.SOURCE, PegName.DESTINATION⟩ =
      some (GameState.init 2, false) ∧
    (GameState.init 1).execute_move ⟨1, PegName.SOURCE, PegName.DESTINATION⟩ =
      match Peg.push (((GameState.init 1).setPeg PegName.SOURCE []).getPeg
          PegName.DESTINATION) ⟨1, diskColour 1⟩ with
        | none => none
        | some l =>
          some (((((GameState.init 1).setPeg PegName.SOURCE []).setPeg
            PegName.DESTINATION l)).incMove, true) :=
  ⟨(C3_execute_move_checks (GameState.init 1) ⟨2, PegName.AUXILIARY, PegName.DESTINATION⟩).1
      rfl,
   (C3_execute_move_checks (GameState.init 1) ⟨2, PegName.SOURCE, PegName.DESTINATION⟩).2.1
      ⟨1, diskColour 1⟩ [] rfl (by decide),
   (C3_execute_move_checks (GameState.init 2) ⟨2, PegName.SOURCE, PegName.DESTINATION⟩).2.1
      ⟨1, diskColour 1⟩ [⟨2, diskColour 2⟩] rfl (by decide),
   (C3_execute_move_checks (GameState.init 1) ⟨1, PegName.SOURCE, PegName.DESTINATION⟩).2.2.2
      ⟨1, diskColour 1⟩ [] rfl (by decide) (by decide)⟩

/-- Claim C4: in every state reachable from a fresh `GameState(n)` by
`execute_move` calls, every peg's sizes read bottom-to-top are strictly
decreasing (equivalently, the top-first Lean list is strictly increasing,
`pegOrdered`), and every successful `execute_move` preserves this
invariant. -/
theorem C4_strictly_decreasing :
    (∀ s : GameState, Reachable s → ∀ p, pegOrdered (s.getPeg p)) ∧
    (∀ (s s' : GameState) (m : Move), (∀ p, pegOrdered (s.getPeg p)) →
      s.execute_move m = some (s', true) → ∀ p, pegOrdered (s'.getPeg p)) :=
  ⟨fun _ hs => (reachable_StateInv hs).1,
   fun _ _ _ ho hm => ordered_preserved hm ho⟩

/-- Witness for C4 on the fresh three-disk state. -/
theorem C4_witness : pegOrdered ((GameState.init 3).getPeg PegName.SOURCE) :=
  C4_strictly_decreasing.1 (GameState.init 3) (Reachable.base 3) PegName.SOURCE

/-- Claim C6, counterexample: `Peg.push` of an equal-or-larger disk is NOT a
locally recovered rejection signal: it raises a `ValueError` (modelled as
`none`) that its only caller, `execute_move`, does not catch — on a state
with two size-2 disks on different pegs the whole `execute_move` call
propagates the error (`none`) instead of reporting a failed move
`some (s, false)`. -/
theorem C6_counterexample :
    Peg.push [⟨2, "#4A90E2"⟩] ⟨2, "#E8F4FD"⟩ = none ∧
    dupState.execute_move ⟨2, PegName.SOURCE, PegName.DESTINATION⟩ = none :=
  ⟨rfl, rfl⟩

/-- Claim C6 (amended): on a non-empty peg, pushing a disk whose size is ≥
the top's raises a `ValueError` (modelled `none`, uncaught by callers; the
peg is unchanged at the raise); pushing a strictly smaller disk, or any
disk onto an empty peg, appends it as the new top. -/
theorem C6_push_behaviour (disks : List Disk) (d : Disk) :
    (disks = [] → Peg.push disks d = some [d]) ∧
    (∀ top rest, disks = top :: rest → top.size ≤ d.size →
      Peg.push disks d = none) ∧
    (∀ top rest, disks = top :: rest → d.size < top.size →
      Peg.push disks d = some (d :: disks)) := by
  refine ⟨?_, ?_, ?_⟩
  · intro h
    rw [h]
    rfl
  · intro top rest h hle
    rw [h]
    show (if d.size ≥ top.size then none else some (d :: top :: rest)
      : Option (List Disk)) = none
    rw [if_pos (by omega)]
  · intro top rest h hlt
    rw [h]
    show (if d.size ≥ top.size then none else some (d :: top :: rest)
      : Option (List Disk)) = some (d :: top :: rest)
    rw [if_neg (by omega)]

/-- Witness for the amended C6: empty-peg append, raise, and normal push. -/
theorem C6_witness :
    Peg.push [] ⟨3, "x"⟩ = some [⟨3, "x"⟩] ∧
    Peg.push [⟨1, "a"⟩] ⟨2, "b"⟩ = none ∧
    Peg.push [⟨2, "a"⟩] ⟨1, "b"⟩ = some [⟨1, "b"⟩, ⟨2, "a"⟩] :=
  ⟨(C6_push_behaviour [] ⟨3, "x"⟩).1 rfl,
   (C6_push_behaviour [⟨1, "a"⟩] ⟨2, "b"⟩).2.1 ⟨1, "a"⟩ [] rfl (by decide),
   (C6_push_behaviour [⟨2, "a"⟩] ⟨1, "b"⟩).2.2 ⟨2, "a"⟩ [] rfl (by decide)⟩

/-- Claim C7: from any reachable state, `reset()` yields exactly the state
of a freshly constructed `GameState` with the same disk count: SOURCE holds
the disks `num_disks..1` largest first (top-first size list `1..num_disks`),
AUXILIARY and DESTINATION are empty, and `current_move` is 0. -/
theorem C7_reset_is_fresh (s : GameState) (h : Reachable s) :
    s.reset = GameState.init s.num_disks ∧
    (s.reset.getPeg PegName.SOURCE).map Disk.size = List.range' 1 s.num_disks ∧
    s.reset.getPeg PegName.AUXILIARY = [] ∧
    s.reset.getPeg PegName.DESTINATION = [] ∧
    s.reset.current_move = 0 := by
  have ht : s.total_moves = 2 ^ s.num_disks - 1 := reachable_consts h
  refine ⟨?_, initDisks_sizes s.num_disks, rfl, rfl, rfl⟩
  obtain ⟨nd, tm, cm, so, au, de⟩ := s
  simp only [GameState.reset, GameState.init] at ht ⊢
  rw [ht]

/-- Witness for C7 on a freshly constructed two-disk state. -/
theorem C7_witness :
    (GameState.init 2).reset = GameState.init (GameState.init 2).num_disks ∧
    ((GameState.init 2).reset.getPeg PegName.SOURCE).map Disk.size =
      List.range' 1 (GameState.init 2).num_disks ∧
    (GameState.init 2).reset.getPeg PegName.AUXILIARY = [] ∧
    (GameState.init 2).reset.getPeg PegName.DESTINATION = [] ∧
    (GameState.init 2).reset.current_move = 0 :=
  C7_reset_is_fresh (GameState.init 2) (Reachable.base 2)

/-- Claim C9: a step callback (`next_move`) firing while the controller is
not running — not solving, or paused — is a no-op: it pulls no move and
leaves everything unchanged; resuming (`toggle_pause` while paused) simply
clears the pause flag and runs `next_move`, which consumes exactly the next
unapplied move of the generator suffix rather than restarting. -/
theorem C9_stale_callback (c : TowerOfHanoiGUI) :
    ((c.is_solving = false ∨ c.is_paused = true) → c.next_move = some c) ∧
    (c.is_solving = true → c.is_paused = true →
      c.toggle_pause = TowerOfHanoiGUI.next_move { c with is_paused := false }) ∧
    (∀ m rest gs, c.is_solving = true → c.is_paused = false →
      c.move_generator = m :: rest →
      c.game_state.execute_move m = some (gs, true) →
      gs.is_solved = false →
      c.next_move = some { c with game_state := gs, move_generator := rest }) := by
  refine ⟨?_, ?_, ?_⟩
  · intro h
    rcases h with h | h <;> simp [TowerOfHanoiGUI.next_move, h]
  · intro h1 h2
    simp [TowerOfHanoiGUI.toggle_pause, h1, h2]
  · intro m rest gs h1 h2 hgen hexec hsolved
    simp [TowerOfHanoiGUI.next_move, h1, h2, hgen, hexec, hsolved]

/-- Witness for C9: a paused controller mid-solve ignores a firing step. -/
theorem C9_witness :
    TowerOfHanoiGUI.next_move
      ⟨GameState.init 3,
        hanoi_solver 3 PegName.SOURCE PegName.DESTINATION PegName.AUXILIARY,
        true, true⟩ =
      some ⟨GameState.init 3,
        hanoi_solver 3 PegName.SOURCE PegName.DESTINATION PegName.AUXILIARY,
        true, true⟩ :=
  (C9_stale_callback _).1 (Or.inr rfl)

/-- Claim C10: from any reachable state (whose pegs are strictly decreasing
with pairwise-distinct sizes), `execute_move` never hits the error branch
inside `Peg.push`: it always returns a boolean (`some` result, never the
`none` that models an uncaught `ValueError`). -/
theorem C10_no_uncaught_error :
    ∀ s, Reachable s → ∀ m : Move, ∃ r, s.execute_move m = some r :=
  fun s hs m => StateInv_execute_move_some s (reachable_StateInv hs) m

/-- Witness for C10 on the fresh one-disk state. -/
theorem C10_witness :
    ((GameState.init 1).execute_move
      ⟨1, PegName.SOURCE, PegName.DESTINATION⟩).isSome = true := by
  obtain ⟨r, hr⟩ := C10_no_uncaught_error (GameState.init 1) (Reachable.base 1)
    ⟨1, PegName.SOURCE, PegName.DESTINATION⟩
  rw [hr]
  rfl
